import Mathlib

/-!
Shallow embedding of the immutable tuple ("ImmutableRecord") operations
exercised by src/tuple.py: construction, count, index, concatenation,
replication, slicing, unpacking, structural equality and hashing, and the
tuple-based swap idiom.  The tuple operations themselves are language
builtins; src/tuple.py holds only caller examples and documenting comments,
so each operation below is modelled from the spec and checked against the
concrete inputs and printed outputs recorded in src/tuple.py.
-/

namespace TupleSpec

/-- An immutable fixed-arity record: an ordered, fixed sequence of fields
(src/tuple.py lines 13, 19-25: ordered, immutable, fixed size). -/
structure ImmutableRecord (α : Type) where
  fields : List α
deriving DecidableEq

/-- Modelled from the spec: Construct(values) captures an ordered sequence
of values as a new record; arity = length of input (spec section 4.1; tuple
literals at src/tuple.py lines 17, 34, 41, 48-49, 57, 65, 75). -/
def Construct {α : Type} (values : List α) : ImmutableRecord α :=
  ⟨values⟩

/-- The fixed number of fields of a record (spec glossary: "Arity"). -/
def arity {α : Type} (r : ImmutableRecord α) : Nat :=
  r.fields.length

/-- Modelled from the spec: Count(record, target) returns the number of
fields equal to target (src/tuple.py lines 30-35: count() returns the
number of occurrences of a specified element). -/
def Count {α : Type} [DecidableEq α] (r : ImmutableRecord α) (t : α) : Nat :=
  r.fields.count t

/-- Error taxonomy of the spec (section 7): NotFound, InvalidArgument,
ArityMismatch. -/
inductive RecordError where
  | NotFound
  | InvalidArgument
  | ArityMismatch
deriving DecidableEq

/-- Index of the first occurrence of a value in a list, if any. -/
def indexOfAux {α : Type} [DecidableEq α] : List α → α → Option Nat
  | [], _ => none
  | x :: xs, t => if x = t then some 0 else (indexOfAux xs t).map (fun i => i + 1)

/-- Modelled from the spec: IndexOf(record, target) returns the index of the
first field equal to target, and fails with NotFound when no field matches
(src/tuple.py lines 37-42: index() returns the index of the first occurrence
and raises an error if the element is not found). -/
def IndexOf {α : Type} [DecidableEq α] (r : ImmutableRecord α) (t : α) :
    Except RecordError Nat :=
  match indexOfAux r.fields t with
  | some i => Except.ok i
  | none => Except.error RecordError.NotFound

/-- Modelled from the spec: Concat(a, b) returns a new record whose fields
are a's fields followed by b's fields (src/tuple.py lines 44-51:
concatenation with +). -/
def Concat {α : Type} (a b : ImmutableRecord α) : ImmutableRecord α :=
  ⟨a.fields ++ b.fields⟩

/-- The list l repeated n times in order. -/
def repeatAux {α : Type} (l : List α) : Nat → List α
  | 0 => []
  | n + 1 => l ++ repeatAux l n

/-- Modelled from the spec: Repeat(record, n) returns a new record whose
fields are the original sequence repeated n times in order, and fails with
InvalidArgument when n is negative (spec section 4.1; src/tuple.py lines
53-59 demonstrate replication with a positive count only, so the negative
case is taken from the spec). -/
def Repeat {α : Type} (r : ImmutableRecord α) (n : Int) :
    Except RecordError (ImmutableRecord α) :=
  if n < 0 then Except.error RecordError.InvalidArgument
  else Except.ok ⟨repeatAux r.fields n.toNat⟩

/-- Normalisation of a slice bound for a sequence of length len, following
the standard sequence-slicing conventions: a negative index counts from the
end, and out-of-range bounds clamp to the nearest valid boundary. -/
def normIdx (len : Nat) (i : Int) : Nat :=
  if i < 0 then (i + (len : Int)).toNat else min i.toNat len

/-- Modelled from the spec: Slice(record, start, end) returns a new record
containing the fields at positions [start, end), with out-of-range bounds
clamping rather than erroring (spec section 4.1; src/tuple.py lines 71-76:
slicing extracts a sub-tuple). -/
def Slice {α : Type} (r : ImmutableRecord α) (s e : Int) : ImmutableRecord α :=
  ⟨(r.fields.take (normIdx r.fields.length e)).drop (normIdx r.fields.length s)⟩

/-- Modelled from the spec: Unpack(record) destructures a record of arity N
into k positional bindings, succeeding exactly when k = N and failing with
ArityMismatch otherwise (spec section 4.1; src/tuple.py lines 61-69
demonstrate only the matching case, so the mismatch case is taken from the
spec). -/
def Unpack {α : Type} (r : ImmutableRecord α) (k : Nat) :
    Except RecordError (List α) :=
  if r.fields.length = k then Except.ok r.fields
  else Except.error RecordError.ArityMismatch

/-- Modelled from the spec: a hash derived deterministically from all field
values, combined with 64-bit wraparound (src/tuple.py line 24: tuples are
hashable and usable as dictionary keys). -/
def recordHash {α : Type} (h : α → Nat) (r : ImmutableRecord α) : Nat :=
  r.fields.foldl (fun acc x => (acc * 1000003 + h x) % 2 ^ 64) 5381

/-- A deterministic value hash for integer fields. -/
def intHash (n : Int) : Nat :=
  n.natAbs

/-- The simultaneous tuple assignment of src/tuple.py lines 137-140: the
right-hand tuple (b, a) is built from the current values and then unpacked
into a and b, swapping them. -/
def swapAssign {α : Type} (p : α × α) : α × α :=
  (p.2, p.1)

/-- An environment of records bound so far, as in the sequences of bindings
of src/tuple.py (tuple1, tuple2, result, ...). -/
abbrev Store (α : Type) := List (ImmutableRecord α)

/-- One transformation step on bound records, referring to its inputs by
their position in the store: concatenation (src/tuple.py line 50),
replication (line 58) or slicing (line 76). -/
inductive TupleOp where
  | concatOp (i j : Nat)
  | repeatOp (i : Nat) (n : Int)
  | sliceOp (i : Nat) (s e : Int)

/-- Applying a transformation binds its result as a new record at the end of
the store; the input records are read, never written. -/
def applyOp {α : Type} (st : Store α) (op : TupleOp) : Store α :=
  match op with
  | TupleOp.concatOp i j => st ++ [Concat (st.getD i ⟨[]⟩) (st.getD j ⟨[]⟩)]
  | TupleOp.repeatOp i n =>
      match Repeat (st.getD i ⟨[]⟩) n with
      | Except.ok r => st ++ [r]
      | Except.error _ => st
  | TupleOp.sliceOp i s e => st ++ [Slice (st.getD i ⟨[]⟩) s e]

/-- The repeated list has length l.length * n. -/
theorem length_repeatAux {α : Type} (l : List α) (n : Nat) :
    (repeatAux l n).length = l.length * n := by
  induction n with
  | zero => simp [repeatAux]
  | succ m ih =>
      simp only [repeatAux, List.length_append, ih]
      ring

/-- repeatAux agrees with flattening n copies of the list. -/
theorem repeatAux_eq_flatten {α : Type} (l : List α) (n : Nat) :
    repeatAux l n = (List.replicate n l).flatten := by
  induction n with
  | zero => simp [repeatAux]
  | succ m ih => simp [repeatAux, List.replicate_succ, ih]

/-- A normalised slice bound never exceeds the length. -/
theorem normIdx_le (len : Nat) (i : Int) : normIdx len i ≤ len := by
  unfold normIdx
  split
  · omega
  · exact min_le_right _ _

/-- Counting occurrences equals the length of the matching-field filter. -/
theorem count_eq_filter_length {α : Type} [DecidableEq α] (l : List α) (v : α) :
    l.count v = (l.filter (fun x => x = v)).length := by
  induction l with
  | nil => rfl
  | cons x xs ih =>
      by_cases h : x = v <;> simp [List.count_cons, List.filter_cons, h, ih]

/-- indexOfAux returns none exactly when the value is absent. -/
theorem indexOfAux_eq_none_iff {α : Type} [DecidableEq α] (l : List α) (t : α) :
    indexOfAux l t = none ↔ t ∉ l := by
  induction l with
  | nil => simp [indexOfAux]
  | cons x xs ih =>
      constructor
      · intro hn
        simp only [indexOfAux] at hn
        by_cases h : x = t
        · rw [if_pos h] at hn
          exact absurd hn (by simp)
        · rw [if_neg h] at hn
          have hxs : indexOfAux xs t = none := by
            cases hq : indexOfAux xs t with
            | none => rfl
            | some i => rw [hq] at hn; exact absurd hn (by simp)
          have hm := ih.mp hxs
          simp only [List.mem_cons, not_or]
          exact ⟨fun ht => h ht.symm, hm⟩
      · intro hm
        have h1 : ¬ x = t := fun he => hm (by simp [he])
        have h2 : t ∉ xs := fun ht => hm (by simp [ht])
        simp only [indexOfAux, if_neg h1]
        rw [ih.mpr h2]
        rfl

/-- When indexOfAux returns an index, that index holds the value and every
earlier index does not. -/
theorem indexOfAux_eq_some_spec {α : Type} [DecidableEq α] (l : List α) (t : α) :
    ∀ i : Nat, indexOfAux l t = some i →
      l[i]? = some t ∧ ∀ j : Nat, j < i → l[j]? ≠ some t := by
  induction l with
  | nil => intro i h; simp [indexOfAux] at h
  | cons x xs ih =>
      intro i h
      simp only [indexOfAux] at h
      by_cases hx : x = t
      · rw [if_pos hx] at h
        injection h with h2
        subst h2
        exact ⟨by simp [hx], fun j hj => absurd hj (by omega)⟩
      · rw [if_neg hx] at h
        cases hq : indexOfAux xs t with
        | none => rw [hq] at h; exact absurd h (by simp)
        | some i0 =>
            rw [hq] at h
            have hii : i0 + 1 = i := by simpa using h
            subst hii
            obtain ⟨h1, h2⟩ := ih i0 hq
            refine ⟨by simpa using h1, ?_⟩
            intro j hj
            cases j with
            | zero => simpa using hx
            | succ j0 =>
                have hj0 : j0 < i0 := by omega
                simpa using h2 j0 hj0

/-- Claim C1: every transformation on records (Concat, Repeat, Slice) is a
pure, side-effect-free operation: applying one to an environment of bound
records only appends the produced record, leaving the fields, arity, and
order of every existing record unchanged. -/
theorem C1_transformations_pure_frame :
    ∀ (st : Store Int) (op : TupleOp) (i : Nat), i < st.length →
      (applyOp st op)[i]? = st[i]? := by
  intro st op i h
  cases op with
  | concatOp a b =>
      simp only [applyOp]
      exact List.getElem?_append_left h
  | repeatOp a n =>
      cases hr : Repeat (st.getD a ⟨[]⟩) n with
      | ok r =>
          simp only [applyOp, hr]
          exact List.getElem?_append_left h
      | error e => simp only [applyOp, hr]
  | sliceOp a s e =>
      simp only [applyOp]
      exact List.getElem?_append_left h

theorem C1_witness :
    (applyOp [Construct ([1, 2] : List Int)] (TupleOp.concatOp 0 0))[0]?
      = [Construct ([1, 2] : List Int)][0]? :=
  C1_transformations_pure_frame [Construct [1, 2]] (TupleOp.concatOp 0 0) 0
    (by decide)

/-- Claim C2: Repeat with a negative count fails with InvalidArgument rather
than returning any record. -/
theorem C2_repeat_negative_invalidArgument :
    ∀ (r : ImmutableRecord Int) (n : Int), n < 0 →
      Repeat r n = Except.error RecordError.InvalidArgument := by
  intro r n h
  simp [Repeat, h]

theorem C2_witness :
    Repeat (Construct ([1, 2, 3] : List Int)) (-1)
      = Except.error RecordError.InvalidArgument :=
  C2_repeat_negative_invalidArgument (Construct [1, 2, 3]) (-1) (by decide)

/-- Claim C3: IndexOf fails with NotFound exactly when no field equals the
target (a distinct error, not a sentinel), any returned index is the first
position holding the target, and IndexOf(Construct([1,2,3,4]), 3) = ok 2. -/
theorem C3_indexOf_first_or_notFound :
    (∀ (r : ImmutableRecord Int) (v : Int),
        (IndexOf r v = Except.error RecordError.NotFound ↔ v ∉ r.fields)
        ∧ ∀ i : Nat, IndexOf r v = Except.ok i →
            r.fields[i]? = some v ∧ ∀ j : Nat, j < i → r.fields[j]? ≠ some v)
    ∧ IndexOf (Construct ([1, 2, 3, 4] : List Int)) 3 = Except.ok 2 := by
  refine ⟨fun r v => ⟨?_, ?_⟩, rfl⟩
  · cases hx : indexOfAux r.fields v with
    | none =>
        have hmem := (indexOfAux_eq_none_iff r.fields v).mp hx
        have heq : IndexOf r v = Except.error RecordError.NotFound := by
          unfold IndexOf
          rw [hx]
        rw [heq]
        simp [hmem]
    | some i =>
        have heq : IndexOf r v = Except.ok i := by
          unfold IndexOf
          rw [hx]
        rw [heq]
        constructor
        · intro habs
          exact absurd habs (by simp)
        · intro hmem
          exfalso
          have hn := (indexOfAux_eq_none_iff r.fields v).mpr hmem
          rw [hx] at hn
          exact Option.noConfusion hn
  · intro i hok
    cases hx : indexOfAux r.fields v with
    | none =>
        have heq : IndexOf r v = Except.error RecordError.NotFound := by
          unfold IndexOf
          rw [hx]
        rw [heq] at hok
        exact absurd hok (by simp)
    | some i0 =>
        have heq : IndexOf r v = Except.ok i0 := by
          unfold IndexOf
          rw [hx]
        rw [heq] at hok
        have hii : i0 = i := by simpa using hok
        subst hii
        exact indexOfAux_eq_some_spec r.fields v i0 hx

theorem C3_witness :
    IndexOf (Construct ([1, 2, 3, 4] : List Int)) 5
        = Except.error RecordError.NotFound
    ∧ (Construct ([1, 2, 3, 4] : List Int)).fields[2]? = some 3 :=
  ⟨((C3_indexOf_first_or_notFound.1 (Construct [1, 2, 3, 4]) 5).1).mpr
      (by decide),
   ((C3_indexOf_first_or_notFound.1 (Construct [1, 2, 3, 4]) 3).2 2
      C3_indexOf_first_or_notFound.2).1⟩

/-- Claim C4: two records are equal iff they have the same arity and equal
corresponding fields (structural equality, independent of construction
history), and equal records have equal hashes, so records work as map keys. -/
theorem C4_structural_equality_hash :
    (∀ a b : ImmutableRecord Int,
        a = b ↔ (arity a = arity b ∧ ∀ i : Nat, a.fields[i]? = b.fields[i]?))
    ∧ ∀ a b : ImmutableRecord Int,
        a = b → recordHash intHash a = recordHash intHash b := by
  constructor
  · intro a b
    constructor
    · intro h
      subst h
      exact ⟨rfl, fun i => rfl⟩
    · rintro ⟨-, h⟩
      cases a with
      | mk fa =>
          cases b with
          | mk fb =>
              have : fa = fb := List.ext_getElem? h
              rw [this]
  · intro a b h
    rw [h]

theorem C4_witness :
    Construct ([1, 2] : List Int) = Construct [1, 2]
    ∧ recordHash intHash (Construct ([1, 2] : List Int))
        = recordHash intHash (Construct [1, 2]) :=
  ⟨(C4_structural_equality_hash.1 (Construct [1, 2]) (Construct [1, 2])).mpr
      ⟨rfl, fun _ => rfl⟩,
   C4_structural_equality_hash.2 (Construct [1, 2]) (Construct [1, 2]) rfl⟩

/-- Claim C5: Concat produces a record holding a's fields followed by b's
fields, its arity is the sum of the arities, and concatenating [1,2,3] with
[4,5,6] gives [1,2,3,4,5,6]. -/
theorem C5_concat_fields_arity :
    (∀ a b : ImmutableRecord Int,
        arity (Concat a b) = arity a + arity b
        ∧ (∀ i : Nat, i < arity a → (Concat a b).fields[i]? = a.fields[i]?)
        ∧ (∀ j : Nat, (Concat a b).fields[arity a + j]? = b.fields[j]?))
    ∧ Concat (Construct ([1, 2, 3] : List Int)) (Construct [4, 5, 6])
        = Construct [1, 2, 3, 4, 5, 6] := by
  refine ⟨fun a b => ⟨?_, ?_, ?_⟩, rfl⟩
  · simp [Concat, arity]
  · intro i h
    exact List.getElem?_append_left h
  · intro j
    have h : a.fields.length ≤ a.fields.length + j := Nat.le_add_right _ _
    show (a.fields ++ b.fields)[a.fields.length + j]? = b.fields[j]?
    rw [List.getElem?_append_right h]
    congr 1
    omega

theorem C5_witness :
    (Concat (Construct ([1, 2] : List Int)) (Construct [9])).fields[1]?
      = (Construct ([1, 2] : List Int)).fields[1]? :=
  (C5_concat_fields_arity.1 (Construct [1, 2]) (Construct [9])).2.1 1 (by decide)

/-- Claim C6: for every non-negative count n, Repeat succeeds with a record
whose fields are the original sequence repeated n times in order, with arity
multiplied by n; Repeat with count 0 is the empty record, and repeating
[1,2,3] three times gives [1,2,3,1,2,3,1,2,3]. -/
theorem C6_repeat_nonneg :
    (∀ (r : ImmutableRecord Int) (n : Nat),
        Repeat r ((n : Nat) : Int)
            = Except.ok (Construct ((List.replicate n r.fields).flatten))
        ∧ arity (Construct ((List.replicate n r.fields).flatten)) = arity r * n)
    ∧ (∀ r : ImmutableRecord Int, Repeat r 0 = Except.ok (Construct []))
    ∧ Repeat (Construct ([1, 2, 3] : List Int)) 3
        = Except.ok (Construct [1, 2, 3, 1, 2, 3, 1, 2, 3]) := by
  refine ⟨fun r n => ⟨?_, ?_⟩, fun r => rfl, rfl⟩
  · have hn : ¬ ((n : Int) < 0) := by
      simp
    simp only [Repeat, hn, if_neg, not_false_iff, Int.toNat_natCast]
    rw [repeatAux_eq_flatten]
    rfl
  · show ((List.replicate n r.fields).flatten).length = r.fields.length * n
    rw [← repeatAux_eq_flatten]
    exact length_repeatAux r.fields n

/-- Claim C7: Slice returns the fields at positions [start, end) under
standard slicing conventions, out-of-range bounds clamp instead of erroring,
and slicing [1,2,3,4,5] from 1 to 4 gives [2,3,4]. -/
theorem C7_slice_clamping :
    (∀ (r : ImmutableRecord Int) (s e : Int),
        arity (Slice r s e)
            = normIdx (arity r) e - normIdx (arity r) s
        ∧ ∀ i : Nat, i < arity (Slice r s e) →
            (Slice r s e).fields[i]? = r.fields[normIdx (arity r) s + i]?)
    ∧ Slice (Construct ([1, 2, 3, 4, 5] : List Int)) 1 4 = Construct [2, 3, 4] := by
  refine ⟨fun r s e => ?_, by decide⟩
  have hb : normIdx (arity r) e ≤ r.fields.length :=
    normIdx_le r.fields.length e
  have hlen : arity (Slice r s e)
      = normIdx (arity r) e - normIdx (arity r) s := by
    show ((r.fields.take (normIdx (arity r) e)).drop
        (normIdx (arity r) s)).length
      = normIdx (arity r) e - normIdx (arity r) s
    rw [List.length_drop, List.length_take, Nat.min_eq_left hb]
  refine ⟨hlen, fun i hi => ?_⟩
  have hi2 : normIdx (arity r) s + i < normIdx (arity r) e := by
    rw [hlen] at hi
    omega
  show ((r.fields.take (normIdx (arity r) e)).drop
      (normIdx (arity r) s))[i]? = r.fields[normIdx (arity r) s + i]?
  rw [List.getElem?_drop, List.getElem?_take_of_lt hi2]

theorem C7_witness :
    (Slice (Construct ([1, 2, 3, 4, 5] : List Int)) 1 4).fields[0]?
      = (Construct ([1, 2, 3, 4, 5] : List Int)).fields[
          normIdx (arity (Construct ([1, 2, 3, 4, 5] : List Int))) 1 + 0]? :=
  (C7_slice_clamping.1 (Construct [1, 2, 3, 4, 5]) 1 4).2 0 (by decide)

/-- Claim C8: Count returns the number of fields equal to the target, 0 when
none match, with no side effects; counting 2 in [1,2,3,2,2,4] gives 3. -/
theorem C8_count_matches :
    (∀ (r : ImmutableRecord Int) (v : Int),
        Count r v = (r.fields.filter (fun x => x = v)).length
        ∧ (v ∉ r.fields → Count r v = 0))
    ∧ Count (Construct ([1, 2, 3, 2, 2, 4] : List Int)) 2 = 3 := by
  refine ⟨fun r v => ⟨count_eq_filter_length r.fields v, ?_⟩, by decide⟩
  intro h
  exact List.count_eq_zero.mpr h

theorem C8_witness :
    Count (Construct ([1, 2, 3] : List Int)) 7 = 0 :=
  (C8_count_matches.1 (Construct [1, 2, 3]) 7).2 (by decide)

/-- Claim C9: unpacking a record of arity N into k positional bindings
succeeds, binding each field in order, exactly when k = N, and fails with
ArityMismatch whenever k differs from N. -/
theorem C9_unpack_arity :
    ∀ (r : ImmutableRecord Int) (k : Nat),
      (k = arity r → Unpack r k = Except.ok r.fields)
      ∧ (k ≠ arity r → Unpack r k = Except.error RecordError.ArityMismatch)
      ∧ (∀ bs : List Int, Unpack r k = Except.ok bs →
          bs.length = arity r ∧ ∀ i : Nat, bs[i]? = r.fields[i]?) := by
  intro r k
  refine ⟨?_, ?_, ?_⟩
  · intro h
    have h2 : r.fields.length = k := h.symm
    unfold Unpack
    rw [if_pos h2]
  · intro h
    have h2 : ¬ r.fields.length = k :=
      fun hm => h (show k = arity r from hm.symm)
    unfold Unpack
    rw [if_neg h2]
  · intro bs hok
    unfold Unpack at hok
    by_cases h : r.fields.length = k
    · rw [if_pos h] at hok
      cases hok
      exact ⟨rfl, fun i => rfl⟩
    · rw [if_neg h] at hok
      exact absurd hok (by simp)

theorem C9_witness :
    Unpack (Construct ([1, 2, 3] : List Int)) 3 = Except.ok [1, 2, 3]
    ∧ Unpack (Construct ([1, 2, 3] : List Int)) 2
        = Except.error RecordError.ArityMismatch :=
  ⟨(C9_unpack_arity (Construct [1, 2, 3]) 3).1 (by decide),
   (C9_unpack_arity (Construct [1, 2, 3]) 2).2.1 (by decide)⟩

/-- Claim C10: the simultaneous tuple assignment a, b = b, a starting from
values (x, y) produces (y, x), applying it twice restores the original pair,
and on the source's concrete input (5, 10) it yields (10, 5). -/
theorem C10_swap_involution :
    (∀ x y : Int, swapAssign (x, y) = (y, x))
    ∧ (∀ p : Int × Int, swapAssign (swapAssign p) = p)
    ∧ swapAssign ((5 : Int), (10 : Int)) = (10, 5) :=
  ⟨fun _ _ => rfl, fun _ => rfl, rfl⟩

end TupleSpec
